import Mathlib

/-!
Verification of the blockchain_starter repository: a shallow embedding of
`src/app.py` (basic hash-linked chain) and `src/defi.py` (proof-of-work chain
with transactions and a lending pool), together with theorems settling the
specification's claims.  Machine words are `Nat` reduced mod 2^32, Python
strings are Lean `String`s (all data here is ASCII), and the stateful Python
methods become explicit state-passing functions.  The unbounded mining loop is
embedded with explicit fuel, returning `Option`.
-/

namespace BlockchainStarter

/-! ## SHA-256 (the digest used by `hashlib.sha256(...).hexdigest()`) -/

def M32 : Nat := 4294967296

/-- Right rotation of a 32-bit word; the rotated-in low part and the shifted
high part occupy disjoint bit ranges, so their sum is their union. -/
def rotr (n x : Nat) : Nat := (x >>> n) + (x <<< (32 - n)) % M32

def chf (x y z : Nat) : Nat := (x &&& y) ^^^ ((x ^^^ 4294967295) &&& z)

/-- Bitwise majority, via the identity `Maj = (x ∧ y) ∨ (z ∧ (x ∨ y))`. -/
def majf (x y z : Nat) : Nat := (x &&& y) ||| (z &&& (x ||| y))

def bs0 (x : Nat) : Nat := rotr 2 x ^^^ rotr 13 x ^^^ rotr 22 x

def bs1 (x : Nat) : Nat := rotr 6 x ^^^ rotr 11 x ^^^ rotr 25 x

def ss0 (x : Nat) : Nat := rotr 7 x ^^^ rotr 18 x ^^^ (x >>> 3)

def ss1 (x : Nat) : Nat := rotr 17 x ^^^ rotr 19 x ^^^ (x >>> 10)

/-- The 64 SHA-256 round constants of FIPS 180-4 (fractional parts of the
cube roots of the first 64 primes), in decimal. -/
def shaK : List Nat :=
  [1116352408, 1899447441, 3049323471, 3921009573, 961987163, 1508970993,
   2453635748, 2870763221, 3624381080, 310598401, 607225278, 1426881987,
   1925078388, 2162078206, 2614888103, 3248222580, 3835390401, 4022224774,
   264347078, 604807628, 770255983, 1249150122, 1555081692, 1996064986,
   2554220882, 2821834349, 2952996808, 3210313671, 3336571891, 3584528711,
   113926993, 338241895, 666307205, 773529912, 1294757372, 1396182291,
   1695183700, 1986661051, 2177026350, 2456956037, 2730485921, 2820302411,
   3259730800, 3345764771, 3516065817, 3600352804, 4094571909, 275423344,
   430227734, 506948616, 659060556, 883997877, 958139571, 1322822218,
   1537002063, 1747873779, 1955562222, 2024104815, 2227730452, 2361852424,
   2428436474, 2756734187, 3204031479, 3329325298]

/-- The eight SHA-256 initial hash values of FIPS 180-4, in decimal. -/
def shaH0 : List Nat :=
  [1779033703, 3144134277, 1013904242, 2773480762,
   1359893119, 2600822924, 528734635, 1541459225]

/-- Big-endian 8-byte encoding of the 64-bit message bit length. -/
def lenBytes (n : Nat) : List Nat :=
  [56, 48, 40, 32, 24, 16, 8, 0].map (fun s => (n >>> s) % 256)

def padMessage (msg : List Nat) : List Nat :=
  let l := msg.length
  let z := (119 - l % 64) % 64
  msg ++ [128] ++ List.replicate z 0 ++ lenBytes (8 * l)

def bytesToWords : List Nat → List Nat
  | b0 :: b1 :: b2 :: b3 :: rest =>
      (b3 + 256 * (b2 + 256 * (b1 + 256 * b0))) :: bytesToWords rest
  | _ => []

/-- Message-schedule extension, carrying the sliding window of the 16 most
recent words: `w[i] = σ1 w[i-2] + w[i-7] + σ0 w[i-15] + w[i-16]`. -/
def scheduleAux : Nat → List Nat → List Nat
  | 0, _ => []
  | n + 1, window =>
      match window with
      | w0 :: w1 :: rest =>
          let w9 := (rest.drop 7).headD 0
          let w14 := (rest.drop 12).headD 0
          let nw := (ss1 w14 + w9 + ss0 w1 + w0) % M32
          nw :: scheduleAux n (w1 :: (rest ++ [nw]))
      | _ => []

def fullSchedule (ws : List Nat) : List Nat := ws ++ scheduleAux 48 ws

def roundStep (st : List Nat) (kw : Nat × Nat) : List Nat :=
  match st with
  | [a, b, c, d, e, f, g, h] =>
      let t1 := (h + bs1 e + chf e f g + kw.1 + kw.2) % M32
      let t2 := (bs0 a + majf a b c) % M32
      [(t1 + t2) % M32, a, b, c, (d + t1) % M32, e, f, g]
  | st => st

def compressBlock (h : List Nat) (ws : List Nat) : List Nat :=
  let w := fullSchedule ws
  let st := (shaK.zip w).foldl roundStep h
  (h.zip st).map (fun p => (p.1 + p.2) % M32)

def compressChunks : Nat → List Nat → List Nat → List Nat
  | 0, h, _ => h
  | n + 1, h, ws => compressChunks n (compressBlock h (ws.take 16)) (ws.drop 16)

/-- The eight lowercase hex digits of a 32-bit word, most significant
nibble first (as `hexdigest` renders each word). -/
def wordHex (w : Nat) : List Char :=
  [28, 24, 20, 16, 12, 8, 4, 0].map (fun s => Nat.digitChar ((w >>> s) % 16))

def sha256hex (msg : List Nat) : String :=
  let ws := bytesToWords (padMessage msg)
  let hs := compressChunks (ws.length / 16) shaH0 ws
  String.mk (hs.foldr (fun w acc => wordHex w ++ acc) [])

/-! ## Python-level helpers: `str`, UTF-8 encoding, slicing -/

/-- UTF-8 bytes of an ASCII string (`value.encode()`); every string the
program hashes is ASCII, where UTF-8 is the identity on code points. -/
def strBytes (s : String) : List Nat := s.data.map Char.toNat

/-- Python `str(n)` for a non-negative integer. -/
def natToString (n : Nat) : String := String.mk (Nat.toDigits 10 n)

/-- Python lowercase hex rendering of a non-negative integer (as in `0x...`
default object reprs). -/
def natToHex (n : Nat) : String := String.mk (Nat.toDigits 16 n)

/-- Python slice `s[:n]`. -/
def pySlice (s : String) (n : Nat) : String := String.mk (s.data.take n)

/-- Python `'0' * n`. -/
def zeroString (n : Nat) : String := String.mk (List.replicate n '0')

/-! ## The extended variant: `src/defi.py` -/

namespace Defi

open BlockchainStarter

/-- `Transaction` from `defi.py`.  `sender` is `None` for minting/reward
transactions, modelled as `Option`.  `objId` models CPython object identity
(`id(self)`): it plays no role in the transaction's fields, but the default
`repr` of a `Transaction` — which `Block.calculate_hash` embeds via
`str(self.transactions)` — displays it. -/
structure Transaction where
  sender : Option String
  recipient : String
  amount : Int
  objId : Nat
deriving DecidableEq

/-- CPython default `repr` of a `Transaction` instance (the class defines no
`__repr__`), as it appears inside `str(list_of_transactions)`. -/
def reprTransaction (t : Transaction) : String :=
  "<__main__.Transaction object at 0x" ++ natToHex t.objId ++ ">"

/-- Python `str` of a list of `Transaction` objects:
`"[" + ", ".join(repr(x) for x in xs) + "]"`. -/
def reprTxList (ts : List Transaction) : String :=
  "[" ++ String.intercalate ", " (ts.map reprTransaction) ++ "]"

/-- `Block` from `defi.py`. -/
structure Block where
  index : Nat
  previous_hash : String
  timestamp : Nat
  transactions : List Transaction
  proof : Nat
  hash : String
deriving DecidableEq

/-- `Block.calculate_hash`:
`sha256((str(index) + str(previous_hash) + str(timestamp) + str(transactions) + str(proof)).encode()).hexdigest()`. -/
def calculateHash (b : Block) : String :=
  sha256hex (strBytes (natToString b.index ++ b.previous_hash ++
    natToString b.timestamp ++ reprTxList b.transactions ++ natToString b.proof))

/-- `Block.__init__` with the default `hash=None`, i.e. the only way `defi.py`
ever constructs a block: the `hash` field is filled by `calculate_hash()` over
the construction-time field values. -/
def mkBlock (index : Nat) (previous_hash : String) (timestamp : Nat)
    (transactions : List Transaction) (proof : Nat) : Block :=
  let b : Block := ⟨index, previous_hash, timestamp, transactions, proof, ""⟩
  { b with hash := calculateHash b }

/-- The `while` guard of `mine_block`, negated:
`calculate_hash()[:difficulty] == '0' * difficulty`. -/
def meetsDifficulty (s : String) (d : Nat) : Bool :=
  pySlice s d == zeroString d

/-- The loop of `Block.mine_block`, with explicit fuel: starting at proof `p`,
return the first proof whose recomputed digest meets the difficulty. -/
def mineAux (b : Block) (d : Nat) : Nat → Nat → Option Nat
  | _, 0 => none
  | p, fuel + 1 =>
      if meetsDifficulty (calculateHash { b with proof := p }) d then some p
      else mineAux b d (p + 1) fuel

/-- `Block.mine_block(difficulty)`: repeatedly increment `self.proof` until the
recomputed digest has the required prefix.  Note the method mutates only
`proof`; the stored `hash` field is left untouched. -/
def mineBlock (fuel : Nat) (b : Block) (d : Nat) : Option Block :=
  (mineAux b d b.proof fuel).map fun p => { b with proof := p }

/-- `Blockchain` from `defi.py`. -/
structure Blockchain where
  chain : List Block
  pending_transactions : List Transaction
  mining_reward : Int
  difficulty : Nat
deriving DecidableEq

/-- `Blockchain.create_genesis_block`: `Block(0, "0", int(time.time()), [], 0)`
(the timestamp is the construction-time clock value, a parameter here). -/
def createGenesisBlock (t : Nat) : Block := mkBlock 0 "0" t [] 0

/-- `Blockchain.__init__`. -/
def Blockchain.init (t : Nat) : Blockchain :=
  { chain := [createGenesisBlock t]
    pending_transactions := []
    mining_reward := 50
    difficulty := 2 }

/-- `Blockchain.get_latest_block`: `self.chain[-1]` (raises on an empty list,
hence `Option`). -/
def getLatestBlock (bc : Blockchain) : Option Block := bc.chain.getLast?

/-- `Blockchain.add_transaction`. -/
def addTransaction (bc : Blockchain) (t : Transaction) : Blockchain :=
  { bc with pending_transactions := bc.pending_transactions ++ [t] }

/-- `Blockchain.mine_pending_transactions(miner_address)`: append the reward
transaction, build a block over all pending transactions at index
`len(chain)` linked to the latest hash, mine it, append it, clear the buffer.
`t` is the clock value and `rewardId` the fresh reward object's identity. -/
def minePendingTransactions (fuel : Nat) (bc : Blockchain) (miner : String)
    (t : Nat) (rewardId : Nat) : Option Blockchain :=
  let pend := bc.pending_transactions ++
    [⟨none, miner, bc.mining_reward, rewardId⟩]
  match bc.chain.getLast? with
  | none => none
  | some lb =>
      let b := mkBlock bc.chain.length lb.hash t pend 0
      (mineAux b bc.difficulty b.proof fuel).map fun p =>
        { bc with
            chain := bc.chain ++ [{ b with proof := p }]
            pending_transactions := [] }

/-- The body of the `for i in range(1, len(chain))` loop of `is_chain_valid`,
as a pairwise scan: for every adjacent pair the current block's stored hash
must equal a fresh recomputation, and its `previous_hash` must equal the
previous block's stored hash. -/
def chainPairsValid : List Block → Bool
  | [] => true
  | [_] => true
  | b0 :: b1 :: rest =>
      (b1.hash == calculateHash b1) && (b1.previous_hash == b0.hash) &&
        chainPairsValid (b1 :: rest)

/-- `Blockchain.is_chain_valid`. -/
def isChainValid (bc : Blockchain) : Bool := chainPairsValid bc.chain

/-- The per-transaction body of `get_balance_of_address`:
`if recipient == address: balance += amount` then
`if sender == address: balance -= amount` (a `None` sender never equals an
address string). -/
def txStep (address : String) (balance : Int) (t : Transaction) : Int :=
  let b1 := if t.recipient = address then balance + t.amount else balance
  if t.sender = some address then b1 - t.amount else b1

/-- `Blockchain.get_balance_of_address`. -/
def getBalanceOfAddress (bc : Blockchain) (address : String) : Int :=
  bc.chain.foldl (fun bal b => b.transactions.foldl (txStep address) bal) 0

/-- All transactions committed in the chain, in block order. -/
def allTxs (bc : Blockchain) : List Transaction :=
  bc.chain.foldr (fun b acc => b.transactions ++ acc) []

/-- The addresses a single transaction mentions: its sender (when not the
`None` minting sentinel) and its recipient. -/
def txAddresses (t : Transaction) : List String :=
  (match t.sender with
   | some s => [s]
   | none => []) ++ [t.recipient]

/-- Every address appearing as sender or recipient anywhere in the chain,
without duplicates. -/
def chainAddresses (bc : Blockchain) : List String :=
  ((allTxs bc).foldr (fun t acc => txAddresses t ++ acc) []).dedup

/-- Total amount minted: the sum of amounts of transactions whose sender is
the `None` sentinel. -/
def mintTotal (bc : Blockchain) : Int :=
  (((allTxs bc).filter (fun t => t.sender == none)).map (·.amount)).sum

/-- `LendingPool` from `defi.py`. -/
structure LendingPool where
  liquidity_pool : Int
deriving DecidableEq

/-- `LendingPool.__init__`. -/
def LendingPool.start : LendingPool := ⟨0⟩

/-- `LendingPool.deposit`. -/
def deposit (lp : LendingPool) (amount : Int) : LendingPool :=
  ⟨lp.liquidity_pool + amount⟩

/-- `LendingPool.borrow`; the boolean mirrors which `print` branch ran
(`true` = the borrow succeeded, `false` = "Insufficient funds"). -/
def borrow (lp : LendingPool) (amount : Int) : LendingPool × Bool :=
  if lp.liquidity_pool ≥ amount then (⟨lp.liquidity_pool - amount⟩, true)
  else (lp, false)

end Defi

/-! ## The basic variant: `src/app.py` -/

namespace App

open BlockchainStarter

/-- `Block` from `app.py`; its constructor stores the five arguments as
given. -/
structure Block where
  index : Nat
  previous_hash : String
  timestamp : Nat
  data : String
  hash : String
deriving DecidableEq

/-- The static `Block.calculate_hash(index, previous_hash, timestamp, data)`. -/
def calculateHash (index : Nat) (previous_hash : String) (timestamp : Nat)
    (data : String) : String :=
  sha256hex (strBytes (natToString index ++ previous_hash ++
    natToString timestamp ++ data))

/-- `Blockchain` from `app.py`. -/
structure Blockchain where
  chain : List Block
deriving DecidableEq

/-- `Blockchain.create_genesis_block`:
`Block(0, "0", int(time.time()), "Genesis Block", "0")`. -/
def createGenesisBlock (t : Nat) : Block := ⟨0, "0", t, "Genesis Block", "0"⟩

/-- `Blockchain.__init__`. -/
def Blockchain.init (t : Nat) : Blockchain := ⟨[createGenesisBlock t]⟩

/-- `Blockchain.add_block(new_block)`: overwrite the new block's
`previous_hash` with the latest block's hash, recompute its `hash`, append.
`chain[-1]` on an empty chain raises, hence `Option`. -/
def addBlock (bc : Blockchain) (nb : Block) : Option Blockchain :=
  bc.chain.getLast?.map fun lb =>
    let nb1 := { nb with previous_hash := lb.hash }
    let nb2 := { nb1 with
      hash := calculateHash nb1.index nb1.previous_hash nb1.timestamp nb1.data }
    ⟨bc.chain ++ [nb2]⟩

/-- The loop of `app.py`'s `is_chain_valid`, as a pairwise scan. -/
def chainPairsValid : List Block → Bool
  | [] => true
  | [_] => true
  | b0 :: b1 :: rest =>
      (b1.hash == calculateHash b1.index b1.previous_hash b1.timestamp b1.data) &&
        (b1.previous_hash == b0.hash) && chainPairsValid (b1 :: rest)

/-- `Blockchain.is_chain_valid`. -/
def isChainValid (bc : Blockchain) : Bool := chainPairsValid bc.chain

end App

/-! ## Claim-support definitions -/

/-- Net effect of one transaction on one address: `+amount` when the address
is the recipient, `-amount` when it is the sender (both when a
self-transfer). -/
def contribOf (t : Defi.Transaction) (a : String) : Int :=
  (if t.recipient = a then t.amount else 0) +
    (if t.sender = some a then -t.amount else 0)

/-- The structural chain invariant of the spec, over any block type with
`previous_hash`, `hash` and `index` projections: the chain is non-empty, each
block's `previous_hash` equals its predecessor's `hash`, and the block at
position `i` carries index `i`. -/
def chainOk {α : Type} (prevH ownH : α → String) (idx : α → Nat)
    (l : List α) : Prop :=
  l ≠ [] ∧
  (∀ i, ∀ h1 : i < l.length, ∀ h2 : i + 1 < l.length,
    prevH (l[i + 1]) = ownH (l[i])) ∧
  (∀ i, ∀ h : i < l.length, idx (l[i]) = i)

/-- Extended-variant states reachable from a fresh `Blockchain()` by the
documented operations `add_transaction` and `mine_pending_transactions`
(each call to the latter observed only when its mining loop returns). -/
inductive ReachableDefi : Defi.Blockchain → Prop where
  | base (t : Nat) : ReachableDefi (Defi.Blockchain.init t)
  | tx {bc : Defi.Blockchain} (t : Defi.Transaction) :
      ReachableDefi bc → ReachableDefi (Defi.addTransaction bc t)
  | mined {bc bc' : Defi.Blockchain} (fuel : Nat) (miner : String)
      (t rewardId : Nat) : ReachableDefi bc →
      Defi.minePendingTransactions fuel bc miner t rewardId = some bc' →
      ReachableDefi bc'

/-- Basic-variant states reachable from a fresh `Blockchain()` by `add_block`
calls whose argument carries the next sequence index (the discipline the
repository's own demo follows; `add_block` itself never writes the index). -/
inductive ReachableApp : App.Blockchain → Prop where
  | base (t : Nat) : ReachableApp (App.Blockchain.init t)
  | add {bc bc' : App.Blockchain} (nb : App.Block) : ReachableApp bc →
      nb.index = bc.chain.length → App.addBlock bc nb = some bc' →
      ReachableApp bc'

/-- Operations on a `LendingPool`. -/
inductive PoolOp where
  | dep (amount : Int)
  | bor (amount : Int)
deriving DecidableEq

def applyPoolOp (lp : Defi.LendingPool) : PoolOp → Defi.LendingPool
  | .dep a => Defi.deposit lp a
  | .bor a => (Defi.borrow lp a).1

def runPoolOps (ops : List PoolOp) : Defi.LendingPool :=
  ops.foldl applyPoolOp Defi.LendingPool.start

def poolOpAmount : PoolOp → Int
  | .dep a => a
  | .bor a => a

/-- The spec's extended-variant scenario: two transfers submitted to a fresh
chain, then one mining call.  `t0`/`t1` are the two clock readings and
`a1`/`a2`/`a3` the three transaction objects' identities. -/
def scenarioC5 (t0 t1 a1 a2 a3 fuel : Nat) : Option Defi.Blockchain :=
  Defi.minePendingTransactions fuel
    (Defi.addTransaction
      (Defi.addTransaction (Defi.Blockchain.init t0) ⟨some "A", "B", 100, a1⟩)
      ⟨some "B", "A", 50, a2⟩)
    "M" t1 a3

/-- The block `mine_pending_transactions` builds and mines inside
`scenarioC5`, as produced by `Block.__init__` (proof 0, hash cached over the
construction-time fields). -/
def scenarioBlock (t0 t1 a1 a2 a3 : Nat) : Defi.Block :=
  Defi.mkBlock 1 (Defi.createGenesisBlock t0).hash t1
    [⟨some "A", "B", 100, a1⟩, ⟨some "B", "A", 50, a2⟩, ⟨none, "M", 50, a3⟩] 0

/-- A concrete run of the scenario: clocks read 0 and 1189, and the three
transaction objects live at addresses `0x7f4a10000010`, `0x7f4a10000090` and
`0x7f4a10000110`. -/
def demoScenario : Option Defi.Blockchain :=
  scenarioC5 0 1189 0x7f4a10000010 0x7f4a10000090 0x7f4a10000110 64

/-- The concrete instance of `scenarioBlock` mined in `demoScenario`. -/
def demoBlock1 : Defi.Block :=
  scenarioBlock 0 1189 0x7f4a10000010 0x7f4a10000090 0x7f4a10000110

/-- Two `Transaction` objects with identical `sender`/`recipient`/`amount`
fields living at different addresses. -/
def twinTxA : Defi.Transaction := ⟨some "A", "B", 100, 0x7f4a10000010⟩

def twinTxB : Defi.Transaction := ⟨some "A", "B", 100, 0x7f4a10000090⟩

/-- Two blocks that agree on every field and on the structure of their
transaction payloads, differing only in the payload objects' identities. -/
def twinBlockA : Defi.Block := ⟨1, "0", 0, [twinTxA], 0, ""⟩

def twinBlockB : Defi.Block := ⟨1, "0", 0, [twinTxB], 0, ""⟩

/-- A block handed to the basic variant's `add_block` carrying index 7
instead of the next sequence position. -/
def strayBlock : App.Block := ⟨7, "", 0, "block one", ""⟩

/-- The state reached from a fresh basic-variant chain by the single
documented call `add_block(strayBlock)`. -/
def strayState : App.Blockchain :=
  (App.addBlock (App.Blockchain.init 0) strayBlock).getD (App.Blockchain.init 0)

/-- A block whose starting proof already satisfies the trivial difficulty 0;
used to witness the mining theorem. -/
def witnessBlock : Defi.Block := Defi.mkBlock 0 "0" 0 [] 0

/-! ## Lending pool -/

/-- C8: `borrow(amount)` decreases the pool by `amount` exactly when
`amount` is at most the current counter, and otherwise leaves the counter
unchanged while signalling insufficiency through the non-fatal status branch;
in particular `deposit(1000)` then `borrow(500)` leaves the pool at 500, and
a following `borrow(600)` fails leaving the pool at 500. -/
theorem C8_borrow_guarded :
    (∀ (lp : Defi.LendingPool) (amount : Int),
      ((Defi.borrow lp amount).1.liquidity_pool =
        if amount ≤ lp.liquidity_pool then lp.liquidity_pool - amount
        else lp.liquidity_pool) ∧
      ((Defi.borrow lp amount).2 = true ↔ amount ≤ lp.liquidity_pool)) ∧
    Defi.borrow (Defi.deposit Defi.LendingPool.start 1000) 500 = (⟨500⟩, true) ∧
    Defi.borrow (Defi.borrow (Defi.deposit Defi.LendingPool.start 1000) 500).1
      600 = (⟨500⟩, false) := by
  refine ⟨?_, by decide, by decide⟩
  intro lp amount
  by_cases h : amount ≤ lp.liquidity_pool <;>
    simp [Defi.borrow, ge_iff_le, h]

theorem applyPoolOp_nonneg (lp : Defi.LendingPool) (op : PoolOp)
    (h0 : 0 ≤ lp.liquidity_pool) (ha : 0 ≤ poolOpAmount op) :
    0 ≤ (applyPoolOp lp op).liquidity_pool := by
  cases op with
  | dep a =>
      simp only [applyPoolOp, Defi.deposit, poolOpAmount] at *
      omega
  | bor a =>
      simp only [applyPoolOp, Defi.borrow, poolOpAmount, ge_iff_le] at *
      by_cases h : a ≤ lp.liquidity_pool
      · simp only [if_pos h]; omega
      · simp only [if_neg h]; exact h0

theorem foldl_poolOps_nonneg (ops : List PoolOp) :
    ∀ lp : Defi.LendingPool, 0 ≤ lp.liquidity_pool →
    (∀ op ∈ ops, 0 ≤ poolOpAmount op) →
    0 ≤ (ops.foldl applyPoolOp lp).liquidity_pool := by
  induction ops with
  | nil => intro lp h0 _; simpa using h0
  | cons op ops ih =>
      intro lp h0 hops
      simp only [List.foldl_cons]
      exact ih _ (applyPoolOp_nonneg lp op h0 (hops op (by simp)))
        (fun o ho => hops o (by simp [ho]))

/-- C10: the pool counter starts at 0 and, along any sequence of deposits and
borrows with non-negative amounts, stays non-negative (since every prefix of
such a sequence is such a sequence, the bound holds after every single
operation). -/
theorem C10_pool_nonneg (ops : List PoolOp)
    (h : ∀ op ∈ ops, 0 ≤ poolOpAmount op) :
    Defi.LendingPool.start.liquidity_pool = 0 ∧
    0 ≤ (runPoolOps ops).liquidity_pool :=
  ⟨rfl, foldl_poolOps_nonneg ops Defi.LendingPool.start (by decide) h⟩

theorem C10_pool_nonneg_witness :
    (∀ op ∈ [PoolOp.dep 1000, PoolOp.bor 500, PoolOp.bor 600],
      0 ≤ poolOpAmount op) ∧
    (Defi.LendingPool.start.liquidity_pool = 0 ∧
      0 ≤ (runPoolOps [PoolOp.dep 1000, PoolOp.bor 500,
        PoolOp.bor 600]).liquidity_pool) :=
  ⟨by decide, C10_pool_nonneg _ (by decide)⟩

/-! ## Chain structure -/

theorem chainOk_singleton {α : Type} (prevH ownH : α → String) (idx : α → Nat)
    (b : α) (hidx : idx b = 0) : chainOk prevH ownH idx [b] := by
  refine ⟨by simp, ?_, ?_⟩
  · intro i h1 h2
    simp at h2
  · intro i h
    have hi : i = 0 := by simp at h; omega
    subst hi
    simpa using hidx

theorem chainOk_append {α : Type} (prevH ownH : α → String) (idx : α → Nat)
    (l : List α) (b : α) (hOk : chainOk prevH ownH idx l)
    (hprev : ∀ h : l ≠ [], prevH b = ownH (l.getLast h))
    (hidx : idx b = l.length) :
    chainOk prevH ownH idx (l ++ [b]) := by
  obtain ⟨hne, hlink, hidxs⟩ := hOk
  refine ⟨by simp, ?_, ?_⟩
  · intro i h1 h2
    by_cases hi1 : i + 1 < l.length
    · have hi0 : i < l.length := Nat.lt_of_succ_lt hi1
      rw [List.getElem_append_left hi1, List.getElem_append_left hi0]
      exact hlink i hi0 hi1
    · have hlen : i + 1 = l.length := by
        simp only [List.length_append, List.length_singleton] at h2
        omega
      have hi0 : i < l.length := by omega
      have hieq : i = l.length - 1 := by omega
      subst hieq
      rw [List.getElem_concat_length l b _ hlen,
        List.getElem_append_left hi0, hprev hne, List.getLast_eq_getElem]
  · intro i h
    by_cases hi : i < l.length
    · rw [List.getElem_append_left hi]
      exact hidxs i hi
    · have hlen : i = l.length := by
        simp only [List.length_append, List.length_singleton] at h
        omega
      rw [List.getElem_concat_length l b i hlen, hidx, hlen]

theorem reachableDefi_chainOk (bc : Defi.Blockchain) (h : ReachableDefi bc) :
    chainOk Defi.Block.previous_hash Defi.Block.hash Defi.Block.index
      bc.chain := by
  induction h with
  | base t => exact chainOk_singleton _ _ _ _ rfl
  | tx t _ ih => exact ih
  | @mined bc0 bc' fuel miner t rewardId _ heq ih =>
      unfold Defi.minePendingTransactions at heq
      cases hl : bc0.chain.getLast? with
      | none => rw [hl] at heq; simp at heq
      | some lb =>
          rw [hl] at heq
          simp only [Option.map_eq_some'] at heq
          obtain ⟨p, _, hbc⟩ := heq
          subst hbc
          refine chainOk_append _ _ _ _ _ ih ?_ rfl
          intro hne'
          have h2 := List.getLast?_eq_getLast _ hne'
          rw [h2] at hl
          rw [Option.some.inj hl]
          rfl

theorem reachableApp_chainOk (bc : App.Blockchain) (h : ReachableApp bc) :
    chainOk App.Block.previous_hash App.Block.hash App.Block.index
      bc.chain := by
  induction h with
  | base t => exact chainOk_singleton _ _ _ _ rfl
  | @add bc0 bc' nb _ hidx heq ih =>
      unfold App.addBlock at heq
      cases hl : bc0.chain.getLast? with
      | none => rw [hl] at heq; simp at heq
      | some lb =>
          rw [hl] at heq
          simp only [Option.map_eq_some'] at heq
          obtain ⟨lb', hlb', hbc⟩ := heq
          obtain rfl : lb = lb' := Option.some.inj hlb'
          subst hbc
          refine chainOk_append _ _ _ _ _ ih ?_ hidx
          intro hne'
          have h2 := List.getLast?_eq_getLast _ hne'
          rw [h2] at hl
          rw [Option.some.inj hl]

/-- C9 (amended): every reachable state of either variant has a non-empty
chain whose consecutive blocks are hash-linked, and whose block at position
`i` carries index `i` — where in the basic variant reachability restricts
`add_block` calls to blocks carrying the next sequence index, since
`add_block` stores whatever index the caller chose. -/
theorem C9_structural_invariant :
    (∀ bc : Defi.Blockchain, ReachableDefi bc →
      chainOk Defi.Block.previous_hash Defi.Block.hash Defi.Block.index
        bc.chain) ∧
    (∀ bc : App.Blockchain, ReachableApp bc →
      chainOk App.Block.previous_hash App.Block.hash App.Block.index
        bc.chain) :=
  ⟨reachableDefi_chainOk, reachableApp_chainOk⟩

theorem C9_structural_invariant_witness :
    chainOk Defi.Block.previous_hash Defi.Block.hash Defi.Block.index
      (Defi.Blockchain.init 0).chain ∧
    chainOk App.Block.previous_hash App.Block.hash App.Block.index
      (App.Blockchain.init 0).chain :=
  ⟨C9_structural_invariant.1 _ (ReachableDefi.base 0),
   C9_structural_invariant.2 _ (ReachableApp.base 0)⟩

/-! ## Mining -/

theorem meetsDifficulty_zero (s : String) : Defi.meetsDifficulty s 0 = true := by
  simp [Defi.meetsDifficulty, pySlice, zeroString]

theorem mineAux_spec (b : Defi.Block) (d : Nat) :
    ∀ fuel p q : Nat, p ≤ q →
      Defi.meetsDifficulty (Defi.calculateHash { b with proof := q }) d = true →
      (∀ r, p ≤ r → r < q →
        Defi.meetsDifficulty (Defi.calculateHash { b with proof := r }) d
          = false) →
      q - p < fuel →
      Defi.mineAux b d p fuel = some q := by
  intro fuel
  induction fuel with
  | zero => intro p q _ _ _ hf; omega
  | succ fuel ih =>
      intro p q hpq hq hmin hf
      simp only [Defi.mineAux]
      by_cases hp :
          Defi.meetsDifficulty (Defi.calculateHash { b with proof := p }) d
            = true
      · rw [if_pos hp]
        have hpq' : p = q := by
          by_contra hne
          have hlt : p < q := Nat.lt_of_le_of_ne hpq hne
          have hfalse := hmin p (Nat.le_refl p) hlt
          rw [hp] at hfalse
          exact Bool.noConfusion hfalse
        rw [hpq']
      · rw [if_neg hp]
        have hne : p ≠ q := fun hc => hp (hc ▸ hq)
        have hlt : p < q := Nat.lt_of_le_of_ne hpq hne
        exact ih (p + 1) q hlt hq
          (fun r h1 h2 => hmin r (Nat.le_of_succ_le h1) h2) (by omega)

/-- C3: whenever some proof at or above the block's starting proof satisfies
the difficulty predicate, `mine_block` terminates (i.e. succeeds with enough
fuel) and leaves `proof` equal to the least satisfying value at or above the
start; for difficulty 0 the first trial succeeds and the proof is unchanged. -/
theorem C3_mine_finds_least (b : Defi.Block) (d : Nat)
    (h : ∃ p, b.proof ≤ p ∧
      Defi.meetsDifficulty (Defi.calculateHash { b with proof := p }) d = true) :
    ∃ q, b.proof ≤ q ∧
      Defi.meetsDifficulty (Defi.calculateHash { b with proof := q }) d = true ∧
      (∀ r, b.proof ≤ r →
        Defi.meetsDifficulty (Defi.calculateHash { b with proof := r }) d
          = true → q ≤ r) ∧
      (∀ fuel, q - b.proof < fuel →
        Defi.mineBlock fuel b d = some { b with proof := q }) ∧
      (d = 0 → q = b.proof) := by
  obtain ⟨p0, hp0, hsat⟩ := h
  have hex : ∃ k, Defi.meetsDifficulty
      (Defi.calculateHash { b with proof := b.proof + k }) d = true :=
    ⟨p0 - b.proof, by rwa [Nat.add_sub_cancel' hp0]⟩
  refine ⟨b.proof + Nat.find hex, Nat.le_add_right _ _, Nat.find_spec hex,
    ?_, ?_, ?_⟩
  · intro r hr hsr
    have hk : Nat.find hex ≤ r - b.proof :=
      Nat.find_min' hex (by rwa [Nat.add_sub_cancel' hr])
    omega
  · intro fuel hfuel
    unfold Defi.mineBlock
    rw [mineAux_spec b d fuel b.proof (b.proof + Nat.find hex)
      (Nat.le_add_right _ _) (Nat.find_spec hex) ?_ (by omega)]
    · rfl
    · intro r h1 h2
      have hk : r - b.proof < Nat.find hex := by omega
      have hmin := Nat.find_min hex hk
      rw [Nat.add_sub_cancel' h1] at hmin
      exact Bool.eq_false_iff.mpr hmin
  · intro hd
    subst hd
    have hk : Nat.find hex ≤ 0 := Nat.find_min' hex (meetsDifficulty_zero _)
    omega

theorem C3_mine_finds_least_witness :
    (∃ p, witnessBlock.proof ≤ p ∧
      Defi.meetsDifficulty
        (Defi.calculateHash { witnessBlock with proof := p }) 0 = true) ∧
    (∃ q, witnessBlock.proof ≤ q ∧
      Defi.meetsDifficulty
        (Defi.calculateHash { witnessBlock with proof := q }) 0 = true ∧
      (∀ r, witnessBlock.proof ≤ r →
        Defi.meetsDifficulty
          (Defi.calculateHash { witnessBlock with proof := r }) 0 = true →
        q ≤ r) ∧
      (∀ fuel, q - witnessBlock.proof < fuel →
        Defi.mineBlock fuel witnessBlock 0 = some { witnessBlock with proof := q }) ∧
      (0 = 0 → q = witnessBlock.proof)) :=
  have h : ∃ p, witnessBlock.proof ≤ p ∧
      Defi.meetsDifficulty
        (Defi.calculateHash { witnessBlock with proof := p }) 0 = true :=
    ⟨0, Nat.le_refl 0, meetsDifficulty_zero _⟩
  ⟨h, C3_mine_finds_least witnessBlock 0 h⟩

/-! ## Balance conservation -/

theorem txStep_eq_contrib (a : String) (c : Int) (t : Defi.Transaction) :
    Defi.txStep a c t = c + contribOf t a := by
  unfold Defi.txStep contribOf
  by_cases h1 : t.recipient = a <;> by_cases h2 : t.sender = some a
  all_goals simp [h1, h2]
  all_goals ring

theorem foldl_txStep (a : String) (ts : List Defi.Transaction) :
    ∀ c : Int, ts.foldl (Defi.txStep a) c = c + (ts.map (contribOf · a)).sum := by
  induction ts with
  | nil => intro c; simp
  | cons t ts ih =>
      intro c
      simp only [List.foldl_cons, List.map_cons, List.sum_cons, ih,
        txStep_eq_contrib]
      ring

theorem getBalance_eq_sum (bc : Defi.Blockchain) (a : String) :
    Defi.getBalanceOfAddress bc a = ((Defi.allTxs bc).map (contribOf · a)).sum := by
  unfold Defi.getBalanceOfAddress Defi.allTxs
  generalize bc.chain = l
  suffices h : ∀ c : Int,
      l.foldl (fun bal b => b.transactions.foldl (Defi.txStep a) bal) c =
        c + ((l.foldr (fun b acc => b.transactions ++ acc) []).map
          (contribOf · a)).sum by
    simpa using h 0
  induction l with
  | nil => intro c; simp
  | cons b l ih =>
      intro c
      rw [List.foldl_cons, ih, foldl_txStep, List.foldr_cons,
        List.map_append, List.sum_append]
      ring

theorem sum_map_add_int {α : Type} (l : List α) (f g : α → Int) :
    (l.map (fun x => f x + g x)).sum = (l.map f).sum + (l.map g).sum := by
  induction l with
  | nil => simp
  | cons x l ih => simp [ih]; ring

theorem sum_map_zero_int {α : Type} (l : List α) :
    (l.map (fun _ => (0 : Int))).sum = 0 := by
  induction l with
  | nil => simp
  | cons x l ih => simp [ih]

theorem sum_col_swap {α β : Type} (T : List α) (L : List β) (c : α → β → Int) :
    (L.map (fun a => (T.map (fun t => c t a)).sum)).sum =
      (T.map (fun t => (L.map (c t)).sum)).sum := by
  induction T with
  | nil => simp [sum_map_zero_int]
  | cons t T ih =>
      simp only [List.map_cons, List.sum_cons]
      rw [← ih, ← sum_map_add_int]

theorem sum_if_not_mem (L : List String) (x : String) (v : Int)
    (hx : x ∉ L) :
    (L.map (fun a => if x = a then v else 0)).sum = 0 := by
  induction L with
  | nil => simp
  | cons y L ih =>
      simp only [List.mem_cons, not_or] at hx
      simp [hx.1, ih hx.2]

theorem sum_if_single (L : List String) (x : String) (v : Int)
    (hnd : L.Nodup) (hx : x ∈ L) :
    (L.map (fun a => if x = a then v else 0)).sum = v := by
  induction L with
  | nil => cases hx
  | cons y L ih =>
      obtain ⟨hy, hndL⟩ := List.nodup_cons.mp hnd
      rcases List.mem_cons.mp hx with h | h
      · subst h
        simp [sum_if_not_mem L x v hy]
      · have hxy : x ≠ y := fun hc => hy (hc ▸ h)
        simp [hxy, ih hndL h]

theorem contrib_row_sum (t : Defi.Transaction) (L : List String)
    (hnd : L.Nodup) (hrec : t.recipient ∈ L)
    (hsend : ∀ s, t.sender = some s → s ∈ L) :
    (L.map (contribOf t)).sum = if t.sender = none then t.amount else 0 := by
  unfold contribOf
  rw [sum_map_add_int, sum_if_single L t.recipient t.amount hnd hrec]
  cases hs : t.sender with
  | none => simp [sum_map_zero_int]
  | some s =>
      have h2 : (L.map (fun a => if some s = some a then -t.amount else 0)).sum
          = -t.amount := by
        simp only [Option.some.injEq]
        exact sum_if_single L s (-t.amount) hnd (hsend s hs)
      rw [h2]
      simp

theorem mem_foldr_append {α β : Type} (f : α → List β) (T : List α) (x : β) :
    x ∈ T.foldr (fun t acc => f t ++ acc) [] ↔ ∃ t ∈ T, x ∈ f t := by
  induction T with
  | nil => simp
  | cons t T ih => simp [ih]

theorem recipient_mem_chainAddresses (bc : Defi.Blockchain)
    (t : Defi.Transaction) (ht : t ∈ Defi.allTxs bc) :
    t.recipient ∈ Defi.chainAddresses bc := by
  unfold Defi.chainAddresses
  rw [List.mem_dedup, mem_foldr_append]
  exact ⟨t, ht, by unfold Defi.txAddresses; simp⟩

theorem sender_mem_chainAddresses (bc : Defi.Blockchain)
    (t : Defi.Transaction) (ht : t ∈ Defi.allTxs bc) (s : String)
    (hs : t.sender = some s) :
    s ∈ Defi.chainAddresses bc := by
  unfold Defi.chainAddresses
  rw [List.mem_dedup, mem_foldr_append]
  exact ⟨t, ht, by unfold Defi.txAddresses; rw [hs]; simp⟩

theorem mintTotal_eq_sum (bc : Defi.Blockchain) :
    Defi.mintTotal bc = ((Defi.allTxs bc).map
      (fun t => if t.sender = none then t.amount else 0)).sum := by
  unfold Defi.mintTotal
  generalize Defi.allTxs bc = ts
  induction ts with
  | nil => simp
  | cons t ts ih =>
      cases hs : t.sender with
      | none => simp [List.filter_cons, hs, ih]
      | some s => simp [List.filter_cons, hs, ih]

/-- C6: summing `get_balance_of_address` over every address that ever appears
as a sender or recipient in the chain yields exactly the total of the amounts
of minting transactions (those with `sender = None`): replayed value is
conserved up to mining rewards. -/
theorem C6_balance_conservation (bc : Defi.Blockchain) :
    ((Defi.chainAddresses bc).map (Defi.getBalanceOfAddress bc)).sum =
      Defi.mintTotal bc := by
  have h1 : ((Defi.chainAddresses bc).map (Defi.getBalanceOfAddress bc)).sum =
      ((Defi.chainAddresses bc).map (fun a =>
        ((Defi.allTxs bc).map (fun t => contribOf t a)).sum)).sum := by
    congr 1
    exact List.map_congr_left fun a _ => getBalance_eq_sum bc a
  rw [h1, sum_col_swap, mintTotal_eq_sum]
  congr 1
  refine List.map_congr_left fun t ht => ?_
  exact contrib_row_sum t (Defi.chainAddresses bc)
    (List.nodup_dedup _)
    (recipient_mem_chainAddresses bc t ht)
    (fun s hs => sender_mem_chainAddresses bc t ht s hs)

/-! ## The mining scenario and concrete runs -/

set_option maxRecDepth 200000

theorem scenarioC5_eq (t0 t1 a1 a2 a3 fuel : Nat) :
    scenarioC5 t0 t1 a1 a2 a3 fuel =
      (Defi.mineAux (scenarioBlock t0 t1 a1 a2 a3) 2 0 fuel).map
        (fun p =>
          { chain := [Defi.createGenesisBlock t0,
              { scenarioBlock t0 t1 a1 a2 a3 with proof := p }]
            pending_transactions := []
            mining_reward := 50
            difficulty := 2 }) := rfl

/-- C5: whenever the scenario "submit `A→B 100` and `B→A 50` to a fresh chain,
then `mine_pending_transactions("M")`" completes (its mining search returns),
the resulting state has balance -50 for `A`, 50 for `B`, 50 for `M`, an empty
pending buffer, and a chain of length 2. -/
theorem C5_demo_balances (t0 t1 a1 a2 a3 fuel : Nat)
    (h : (scenarioC5 t0 t1 a1 a2 a3 fuel).isSome = true) :
    (scenarioC5 t0 t1 a1 a2 a3 fuel).map (fun bc =>
      (Defi.getBalanceOfAddress bc "A", Defi.getBalanceOfAddress bc "B",
       Defi.getBalanceOfAddress bc "M", bc.pending_transactions,
       bc.chain.length)) =
      some (-50, 50, 50, ([] : List Defi.Transaction), 2) := by
  rw [scenarioC5_eq] at h ⊢
  cases hm : Defi.mineAux (scenarioBlock t0 t1 a1 a2 a3) 2 0 fuel with
  | none => rw [hm] at h; simp at h
  | some p => rfl

theorem C5_demo_balances_witness :
    demoScenario.isSome = true ∧
    demoScenario.map (fun bc =>
      (Defi.getBalanceOfAddress bc "A", Defi.getBalanceOfAddress bc "B",
       Defi.getBalanceOfAddress bc "M", bc.pending_transactions,
       bc.chain.length)) =
      some (-50, 50, 50, ([] : List Defi.Transaction), 2) :=
  ⟨rfl, C5_demo_balances 0 1189 0x7f4a10000010 0x7f4a10000090
    0x7f4a10000110 64 rfl⟩

/-- C1 (code bug, evaluated at a failing input): a chain produced from a
fresh extended-variant `Blockchain()` by two `add_transaction` calls and one
completing `mine_pending_transactions` call is rejected by
`is_chain_valid()`, because mining advanced `proof` (here to 1) without
refreshing the cached `hash` field. -/
theorem C1_mined_chain_invalid :
    demoScenario.map Defi.isChainValid = some false := by rfl

/-- C2 (code bug, evaluated at a failing input): after `mine_block(2)`
returns on the concretely constructed pending block, `proof` was mutated
(to 1) but the stored `hash` field was not updated: it differs from the
digest of the current fields and does not start with two `'0'` characters. -/
theorem C2_stale_hash_after_mining :
    (Defi.mineBlock 64 demoBlock1 2).map
      (fun b => (b.proof, b.hash == Defi.calculateHash b,
        Defi.meetsDifficulty b.hash 2)) = some (1, false, false) := by rfl

/-- C4 counterexample: the basic variant's genesis block stores the literal
string `"0"` as its hash, which is not the digest of its own fields. -/
theorem C4_genesis_hash_counterexample :
    (App.createGenesisBlock 0).hash ≠
      App.calculateHash 0 "0" 0 "Genesis Block" := by decide

/-- C4 (amended): `create_genesis_block()` in the basic variant returns the
block with index 0, `previous_hash` `"0"`, payload `"Genesis Block"`, and a
hash field equal to the fixed sentinel string `"0"` — not to the digest of
its fields. -/
theorem C4_genesis_block_fields (t : Nat) :
    App.createGenesisBlock t =
      { index := 0, previous_hash := "0", timestamp := t,
        data := "Genesis Block", hash := "0" } := rfl

/-- C7 (code bug, evaluated at a failing input): two transactions with
identical `sender`/`recipient`/`amount` fields but distinct object
identities make otherwise identical blocks hash differently, because
`calculate_hash` serializes the transaction list via default object reprs
(which embed `id()`) instead of a canonical form. -/
theorem C7_identity_dependent_digest :
    (twinTxA.sender = twinTxB.sender ∧ twinTxA.recipient = twinTxB.recipient ∧
      twinTxA.amount = twinTxB.amount) ∧
    Defi.calculateHash twinBlockA ≠ Defi.calculateHash twinBlockB :=
  ⟨⟨rfl, rfl, rfl⟩, by decide⟩

/-- C9 counterexample: `add_block` keeps whatever index the caller supplied,
so the state reached from a fresh basic-variant chain by the single
documented call `add_block(Block(7, "", 0, "block one", ""))` violates the
structural invariant: its block at position 1 carries index 7. -/
theorem C9_caller_index_counterexample :
    App.addBlock (App.Blockchain.init 0) strayBlock = some strayState ∧
    ¬ chainOk App.Block.previous_hash App.Block.hash App.Block.index
        strayState.chain := by
  refine ⟨by rfl, fun hOk => ?_⟩
  have h2 : strayState.chain.length = 2 := by rfl
  have hlt : 1 < strayState.chain.length := by rw [h2]; omega
  have h1 := hOk.2.2 1 hlt
  have h7 : (strayState.chain[1]).index = 7 := rfl
  omega

end BlockchainStarter
